import Mathlib

/-!
Verification of the path-resolution and incremental-indexing engine of the
typescript-namespace-imports VS Code plugin.

The TypeScript source operates on plain strings (JS `String.prototype` methods)
and on Node's posix `path` module.  We embed paths as Lean `String`s and give
executable models of the string and path primitives the source uses.  JS string
indices are UTF-16 code units; all paths handled by the plugin are ASCII, where
code units coincide with `Char`s, so `String.data` is a faithful carrier.
-/

namespace S2P

/-- JS `a.startsWith(b)`: `b` is a prefix of `a` (by code units). -/
def jsStartsWith (a b : String) : Bool := b.data.isPrefixOf a.data

/-- JS `a.endsWith(b)`: `b` is a suffix of `a`. -/
def jsEndsWith (a b : String) : Bool := b.data.isSuffixOf a.data

/-- JS `a.includes(b)`: `b` occurs as a contiguous substring of `a`. -/
def jsIncludes (a b : String) : Bool := a.data.tails.any (fun t => b.data.isPrefixOf t)

/-- JS `a.length` (code units; ASCII assumed). -/
def jsLen (a : String) : Nat := a.data.length

/-- JS `a.slice(n)`: drop the first `n` code units. -/
def jsSliceFrom (a : String) (n : Nat) : String := ⟨a.data.drop n⟩

/-- JS `a.slice(0, n)`: take the first `n` code units. -/
def jsSliceTo (a : String) (n : Nat) : String := ⟨a.data.take n⟩

/-- JS `s.includes('*')` specialised to the wildcard character. -/
def hasStar (s : String) : Bool := s.data.contains '*'

/-- JS `s.replace('*', '')`: remove the first `*`, if any (string-pattern
`replace` only touches the first occurrence). -/
def dropFirstStar (s : String) : String :=
  ⟨(s.data.takeWhile (fun c => c ≠ '*')) ++ (s.data.dropWhile (fun c => c ≠ '*')).drop 1⟩

/-- Split a string at its first `*`: the part before and the part after. -/
def splitAtFirstStar (s : String) : Option (String × String) :=
  if s.data.contains '*' then
    some (⟨s.data.takeWhile (fun c => c ≠ '*')⟩, ⟨(s.data.dropWhile (fun c => c ≠ '*')).drop 1⟩)
  else none

/-- JS `s.replace(/\*/g, r)`: replace every `*` by `r`. -/
def replaceAllStars (s r : String) : String :=
  ⟨s.data.flatMap (fun c => if c = '*' then r.data else [c])⟩

/-- `u.firstChar` from src/src/u.ts: `value.slice(0, 1)`. -/
def firstChar (s : String) : String := jsSliceTo s 1

/-! ### Model of Node's posix `path` module

Segment-based implementations.  The plugin only ever passes clean
slash-separated paths (absolute file paths from the editor, and the
relative patterns of a tsconfig), for which these agree with Node. -/

/-- Split a character list at every `/`. -/
def splitSlash : List Char → List (List Char)
  | [] => [[]]
  | c :: cs =>
    if c = '/' then [] :: splitSlash cs
    else
      match splitSlash cs with
      | [] => [[c]]
      | h :: t => (c :: h) :: t

/-- Raw slash-split of a path, empty segments dropped. -/
def rawSegs (s : String) : List String :=
  ((splitSlash s.data).map (fun l => (⟨l⟩ : String))).filter (fun seg => seg ≠ "")

/-- Join segments with `/`. -/
def joinSegs : List String → String
  | [] => ""
  | [s] => s
  | s :: rest => s ++ "/" ++ joinSegs rest

/-- Normalize a segment list: drop `.`, resolve `..`.  `abs` tells whether the
path is rooted (a leading `..` is dropped for rooted paths, kept otherwise). -/
def normSegs (abs : Bool) (l : List String) : List String :=
  l.foldl
    (fun acc seg =>
      if seg = "." then acc
      else if seg = ".." then
        if acc ≠ [] ∧ acc.getLast! ≠ ".." then acc.dropLast
        else if abs then acc else acc ++ [".."]
      else acc ++ [seg])
    []

/-- Node `path.isAbsolute` (posix). -/
def pIsAbsolute (s : String) : Bool := jsStartsWith s "/"

/-- Node `path.resolve(base, p)` for an absolute `base` (the only way the
plugin calls it). -/
def pResolve (base p : String) : String :=
  if pIsAbsolute p then "/" ++ joinSegs (normSegs true (rawSegs p))
  else "/" ++ joinSegs (normSegs true (rawSegs base ++ rawSegs p))

/-- Drop the longest common prefix of two segment lists. -/
def dropCommonSegs : List String → List String → List String × List String
  | x :: xs, y :: ys => if x = y then dropCommonSegs xs ys else (x :: xs, y :: ys)
  | xs, ys => (xs, ys)

/-- Node `path.relative(fr, dst)`: both arguments rooted at the same origin
(the plugin always passes two absolute paths, or two paths relative to the
same directory). -/
def pRelative (fr dst : String) : String :=
  let a := normSegs true (rawSegs fr)
  let b := normSegs true (rawSegs dst)
  let (ra, rb) := dropCommonSegs a b
  joinSegs (ra.map (fun _ => "..") ++ rb)

/-- Node `path.join(a, b)`. -/
def pJoin (a b : String) : String :=
  let abs := pIsAbsolute a
  let j := joinSegs (normSegs abs (rawSegs a ++ rawSegs b))
  if abs then "/" ++ j else if j = "" then "." else j

/-- Index of the last `/` in a character list, if any. -/
def lastSlashIdx (l : List Char) : Option Nat :=
  (l.enum.filter (fun p => p.2 = '/')).getLast?.map (fun p => p.1)

/-- Node `path.basename(p)`: the part after the final `/`. -/
def pBasename (p : String) : String :=
  match lastSlashIdx p.data with
  | none => p
  | some i => ⟨p.data.drop (i + 1)⟩

/-- Node `path.basename(p, ext)`: basename with a trailing `ext` stripped
when it is a proper suffix. -/
def pBasenameExt (p ext : String) : String :=
  let b := pBasename p
  if jsEndsWith b ext ∧ b ≠ ext then jsSliceTo b (jsLen b - jsLen ext) else b

/-- Node `path.dirname(p)`. -/
def pDirname (p : String) : String :=
  match lastSlashIdx p.data with
  | none => "."
  | some 0 => "/"
  | some i => ⟨p.data.take i⟩

/-- Index of the last `.` in a character list, if any. -/
def lastDotIdx (l : List Char) : Option Nat :=
  (l.enum.filter (fun p => p.2 = '.')).getLast?.map (fun p => p.1)

/-- Node `path.extname(p)`: from the last `.` of the basename, unless that dot
is the basename's first character. -/
def pExtname (p : String) : String :=
  let b := (pBasename p).data
  match lastDotIdx b with
  | none => ""
  | some 0 => ""
  | some i => ⟨b.drop i⟩

/-- `u.pathWithoutExt` from src/src/u.ts:
`path.slice(0, path.length - pathUtil.extname(path).length)`. -/
def pathWithoutExt (p : String) : String :=
  jsSliceTo p (jsLen p - jsLen (pExtname p))

/-! ### Model of lodash `_.camelCase` (ASCII) -/

def isLowerC (c : Char) : Bool := 'a' ≤ c ∧ c ≤ 'z'
def isUpperC (c : Char) : Bool := 'A' ≤ c ∧ c ≤ 'Z'
def isDigitC (c : Char) : Bool := '0' ≤ c ∧ c ≤ '9'
def isAlnumC (c : Char) : Bool := isLowerC c ∨ isUpperC c ∨ isDigitC c

/-- Split a run of alphanumerics at case and letter/digit boundaries, as
lodash `words` does for ASCII input (`fooBar` → `foo`,`Bar`; `FOOBar` →
`FOO`,`Bar`; `abc123` → `abc`,`123`).  `acc` is the current word reversed. -/
def splitCaseAux : List Char → List Char → List (List Char)
  | acc, [] => if acc = [] then [] else [acc.reverse]
  | acc, b :: rest =>
    match acc with
    | [] => splitCaseAux [b] rest
    | a :: _ =>
      let nextLower : Bool := match rest with
        | c :: _ => isLowerC c
        | [] => false
      let boundary : Bool :=
        (isLowerC a && isUpperC b)
        || ((isLowerC a || isUpperC a) && isDigitC b)
        || (isDigitC a && (isLowerC b || isUpperC b))
        || (isUpperC a && isUpperC b && nextLower)
      if boundary then acc.reverse :: splitCaseAux [b] rest
      else splitCaseAux (b :: acc) rest

/-- Collect maximal alphanumeric runs; `acc` is the current run reversed. -/
def alnumRunsAux : List Char → List Char → List (List Char)
  | acc, [] => if acc = [] then [] else [acc.reverse]
  | acc, c :: cs =>
    if isAlnumC c then alnumRunsAux (c :: acc) cs
    else if acc = [] then alnumRunsAux [] cs
    else acc.reverse :: alnumRunsAux [] cs

/-- Maximal alphanumeric runs of a character list. -/
def alnumRuns (l : List Char) : List (List Char) := alnumRunsAux [] l

/-- lodash `_.words` for ASCII strings. -/
def lodashWords (s : String) : List String :=
  ((alnumRuns s.data).flatMap (fun run => splitCaseAux [] run)).map (fun l => ⟨l⟩)

/-- Lowercase every character of a word. -/
def lowerWord (w : String) : String := ⟨w.data.map Char.toLower⟩

/-- lodash `_.upperFirst` of a lowercased word. -/
def capWord (w : String) : String :=
  match w.data with
  | [] => ""
  | c :: cs => ⟨c.toUpper :: cs.map Char.toLower⟩

/-- lodash `_.camelCase`: first word lowercased, later words capitalized. -/
def camelCase (s : String) : String :=
  match lodashWords s with
  | [] => ""
  | w :: ws => (ws.map capWord).foldl (fun acc x => acc ++ x) (lowerWord w)

/-! ### Data model (src/src/completion_items_service.ts)

`TsConfigJson` is the statically-shaped parse of one tsconfig.  JS `Record`s
iterate in insertion order, so `paths` is an ordered association list. -/

structure TsConfigJson where
  baseUrl : Option String
  paths : Option (List (String × List String))
  outDir : Option String
deriving DecidableEq

/-- A module record for a bare import
(`ModuleForBareImport` in the service). -/
structure ModuleForBareImport where
  moduleName : String
  importPath : String
  tsFilePath : String
deriving DecidableEq

/-- A module record for a relative import (`ModuleForRelativeImport`). -/
structure ModuleForRelativeImport where
  moduleName : String
  tsFilePath : String
deriving DecidableEq

/-- What `getModulesForCompletion` returns (`ModuleForCompletion`). -/
structure ModuleForCompletion where
  moduleName : String
  importPath : String
deriving DecidableEq

/-! ### JS `Map` model: insertion-ordered association lists -/

/-- JS `Map.prototype.get`. -/
def aGet {α : Type} (m : List (String × α)) (k : String) : Option α :=
  (m.find? (fun e => e.1 = k)).map (fun e => e.2)

/-- JS `Map.prototype.set`: replace in place if the key exists, else append. -/
def aSet {α : Type} (m : List (String × α)) (k : String) (v : α) : List (String × α) :=
  if (m.find? (fun e => e.1 = k)).isSome
  then m.map (fun e => if e.1 = k then (k, v) else e)
  else m ++ [(k, v)]

/-- JS `Map.prototype.delete`. -/
def aErase {α : Type} (m : List (String × α)) (k : String) : List (String × α) :=
  m.filter (fun e => e.1 ≠ k)

/-- `u.map.getOrCreate(m, k, () => []).push(v)`: append `v` to the bucket at
`k`, creating the bucket when absent. -/
def bucketPush {α : Type} (m : List (String × List α)) (k : String) (v : α) :
    List (String × List α) :=
  aSet m k (((aGet m k).getD []) ++ [v])

/-- Filter the bucket at `k` in place, if present (the pattern
`map.get(k); if defined then map.set(k, filtered)` used by the delete
handler). -/
def bucketFilterAt {α : Type} (m : List (String × List α)) (k : String)
    (keep : α → Bool) : List (String × List α) :=
  match aGet m k with
  | none => m
  | some recs => aSet m k (recs.filter keep)

/-! ### Path resolution (src/src/uri_helpers.ts, current generation) -/

/-- `findOwnerTsProjectForTsFile`: candidates are the project root paths that
are string prefixes of the file path; `u.max` (compare by `path.length`,
replace only on strictly greater) picks the longest one. -/
def findOwnerTsProjectForTsFile (uriPath : String) (tsProjectPaths : List String) :
    Option String :=
  let candidates := tsProjectPaths.filter (fun pp => jsStartsWith uriPath pp)
  match candidates with
  | [] => none
  | c :: cs => some (cs.foldl (fun cur x => if jsLen cur < jsLen x then x else cur) c)

/-- `makeModuleName`: camelCase of the basename with `.ts`/`.tsx` stripped. -/
def makeModuleName (uriPath : String) : String :=
  camelCase (pBasenameExt uriPath (if jsEndsWith uriPath "ts" then ".ts" else ".tsx"))

/-- `matchPathPatternForProject`: try every `paths` entry in order, every
target in order.  With a `*` in the pattern, match the candidate's
workspace-relative path against the resolved target by string prefix and
splice the remainder into the pattern; without one, require equality.
`workspaceFolderPath` stands for `tsProject.workspaceFolder.uri.path`. -/
def matchPathPatternForProject (tsProjectPath : String) (cfg : TsConfigJson)
    (workspaceFolderPath : String) (moduleUriPath : String) : Option String :=
  match cfg.paths with
  | none => none
  | some paths =>
    let moduleRelativePath := pRelative workspaceFolderPath moduleUriPath
    let baseUrl := cfg.baseUrl.getD "."
    let basePath := pResolve tsProjectPath baseUrl
    paths.findSome? (fun entry =>
      entry.2.findSome? (fun mapping =>
        let resolvedMapping := pResolve basePath mapping
        let workspaceRelativeMapping := pRelative workspaceFolderPath resolvedMapping
        if hasStar entry.1 then
          let patternPre := dropFirstStar entry.1
          let mappingPre := dropFirstStar workspaceRelativeMapping
          if jsStartsWith moduleRelativePath mappingPre then
            some (patternPre ++ jsSliceFrom moduleRelativePath (jsLen mappingPre))
          else none
        else if moduleRelativePath = workspaceRelativeMapping then some entry.1
        else none))

/-- `doesImportPathViaBaseUrlConflictWithPathsMapping`: the baseUrl-derived
path collides when it starts with the `*`-stripped pattern side of any
`paths` entry. -/
def doesImportPathViaBaseUrlConflictWithPathsMapping
    (moduleRelativePath : String) (cfg : TsConfigJson) : Bool :=
  match cfg.paths with
  | none => false
  | some paths =>
    paths.any (fun entry =>
      let pat := if hasStar entry.1 then dropFirstStar entry.1 else entry.1
      jsStartsWith moduleRelativePath pat)

/-- `makeBareImportPath`: alias match first; else baseUrl fallback guarded by
the conflict check. -/
def makeBareImportPath (tsProjectPath : String) (cfg : TsConfigJson)
    (workspaceFolderPath : String) (moduleUriPath : String) : Option String :=
  match matchPathPatternForProject tsProjectPath cfg workspaceFolderPath moduleUriPath with
  | some matchedPath => some (pathWithoutExt matchedPath)
  | none =>
    match cfg.baseUrl with
    | none => none
    | some b =>
      let baseUrlPath := pResolve tsProjectPath b
      if jsStartsWith moduleUriPath baseUrlPath then
        let moduleRelativePath := pRelative baseUrlPath moduleUriPath
        if doesImportPathViaBaseUrlConflictWithPathsMapping moduleRelativePath cfg
        then none
        else some (pathWithoutExt moduleRelativePath)
      else none

/-- Result of `evaluateModuleForTsProject`. -/
inductive ModuleEvaluationForTsProject where
  | bareImport (moduleName importPath : String)
  | relativeImport (moduleName : String)
  | importDisallowed
deriving DecidableEq

/-- `evaluateModuleForTsProject`. -/
def evaluateModuleForTsProject (tsProjectPath : String) (cfg : TsConfigJson)
    (workspaceFolderPath : String) (moduleUriPath : String) :
    ModuleEvaluationForTsProject :=
  let moduleName := makeModuleName moduleUriPath
  match makeBareImportPath tsProjectPath cfg workspaceFolderPath moduleUriPath with
  | some p => .bareImport moduleName p
  | none =>
    if jsStartsWith moduleUriPath tsProjectPath then .relativeImport moduleName
    else .importDisallowed

/-! ### Old-generation resolver (`_matchPathPatternForProject`, unnamed part)

The earlier cache keeps one `paths`/`baseUrl` table per project and matches a
workspace-relative file path against it.  A target list containing the
sentinel `dummy-value-so-nothing-is-resolved` makes the whole entry skip
(`continue`).  Wildcard targets are matched by the regex
`^pre(.*)suf$` built from the target; tsconfig patterns carry at most one
`*` (the rest of the target after the first star is treated as literal). -/

/-- Capture of `filePath.match(new RegExp("^" + mapping.replace(/\*\/g, "(.*)") + "$"))[1]`
for a single-wildcard mapping. -/
def wildcardCapture (mapping filePath : String) : Option String :=
  match splitAtFirstStar mapping with
  | none => none
  | some (pre, suf) =>
    if jsStartsWith filePath pre ∧ jsEndsWith filePath suf
        ∧ jsLen pre + jsLen suf ≤ jsLen filePath then
      some (jsSliceTo (jsSliceFrom filePath (jsLen pre)) (jsLen filePath - jsLen pre - jsLen suf))
    else none

/-- `_matchPathPatternForProject` (old generation): `filePath` is already
workspace-relative; `rootPath` is the project root, `workspaceFolderPath` the
folder root. -/
def matchPathPatternForProjectOld (filePath : String)
    (paths : Option (List (String × List String)))
    (workspaceFolderPath rootPath : String) : Option String :=
  match paths with
  | none => none
  | some ps =>
    let projectRelativeRoot := pRelative workspaceFolderPath rootPath
    ps.findSome? (fun entry =>
      if entry.2.contains "dummy-value-so-nothing-is-resolved" then none
      else
        entry.2.findSome? (fun mapping =>
          let resolvedMapping :=
            if jsStartsWith mapping "./" then pJoin projectRelativeRoot (jsSliceFrom mapping 2)
            else if jsStartsWith mapping "../" then
              pRelative workspaceFolderPath (pResolve rootPath mapping)
            else if pIsAbsolute mapping then mapping
            else pJoin projectRelativeRoot mapping
          if hasStar entry.1 ∧ hasStar resolvedMapping then
            match wildcardCapture resolvedMapping filePath with
            | some cap => some (replaceAllStars entry.1 cap)
            | none => none
          else if ¬ hasStar entry.1 ∧ ¬ hasStar resolvedMapping then
            if jsStartsWith filePath resolvedMapping then
              let rel := pRelative resolvedMapping filePath
              some (if rel = "" then entry.1 else pJoin entry.1 rel)
            else none
          else none))

/-! ### Old-generation completion-item map (src/src/completion_item_map.ts)

`removeItem` filters its bucket by JS object identity (`itemInMap !== item`).
We make identity observable with an allocation id `oid`: two constructions of
an item, even with equal fields, carry distinct `oid`s. -/

/-- A `vscode.CompletionItem` as the old cache uses it: `label` is the module
name, `detail` the import path; `oid` models JS object identity. -/
structure VCompletionItem where
  label : String
  detail : String
  oid : Nat
deriving DecidableEq

/-- The key function `getItemPrefix`: first character of the label. -/
def getItemKey (item : VCompletionItem) : String := firstChar item.label

/-- `CompletionItemMapImpl.putItem`. -/
def putItem (m : List (String × List VCompletionItem)) (item : VCompletionItem) :
    List (String × List VCompletionItem) :=
  bucketPush m (getItemKey item) item

/-- `CompletionItemMapImpl.getItemsAt`. -/
def getItemsAt (m : List (String × List VCompletionItem)) (k : String) :
    List VCompletionItem :=
  (aGet m k).getD []

/-- `CompletionItemMapImpl.removeItem`: filter the bucket by
`itemInMap !== item`, i.e. by object identity. -/
def removeItem (m : List (String × List VCompletionItem)) (item : VCompletionItem) :
    List (String × List VCompletionItem) :=
  match aGet m (getItemKey item) with
  | none => m
  | some items => aSet m (getItemKey item) (items.filter (fun it => it.oid ≠ item.oid))

/-! ### The service (src/src/completion_items_service.ts, current generation)

External collaborators (the editor's workspace-folder lookup and
`findFiles`) are modelled by an explicit environment: the list of workspace
folders, the tsconfig files on disk with their parses, and the TypeScript
files on disk.  `findFiles(include, exclude)` is modelled by filtering that
list with the glob semantics the service requests. -/

/-- A `vscode.WorkspaceFolder`: a name and a root path. -/
structure WsFolder where
  name : String
  path : String
deriving DecidableEq

/-- A tsconfig.json on disk together with its parse
(`parseTsConfigJson` output). -/
structure FsTsConfig where
  path : String
  cfg : TsConfigJson
deriving DecidableEq

/-- The editor-side world the service reads through vscode APIs. -/
structure Env where
  folders : List WsFolder
  tsconfigs : List FsTsConfig
  tsFiles : List String
deriving DecidableEq

/-- Model of `vscode.workspace.getWorkspaceFolder`: the registered folder
whose root contains the uri. -/
def getWorkspaceFolder (env : Env) (uriPath : String) : Option WsFolder :=
  env.folders.find? (fun f => jsStartsWith uriPath (f.path ++ "/"))

/-- A `TsProject` value of the service: its parsed config and the two
per-first-character record maps.  (`workspaceFolder` is carried by the
enclosing `Workspace`.) -/
structure TsProject where
  cfg : TsConfigJson
  bare : List (String × List ModuleForBareImport)
  rel : List (String × List ModuleForRelativeImport)
deriving DecidableEq

/-- A `Workspace` of the service. -/
structure Workspace where
  folder : WsFolder
  tsProjectByPath : List (String × TsProject)
  ownerByFile : List (String × String)
deriving DecidableEq

/-- The service state `workspaceByName`. -/
abbrev Service := List (String × Workspace)

/-- `getAbsoluteOutDir`. -/
def getAbsoluteOutDir (tsProjectPath : String) (cfg : TsConfigJson) : Option String :=
  cfg.outDir.map (fun od => if pIsAbsolute od then od else pResolve tsProjectPath od)

/-- `isFileInOutDir`: some project's resolved outDir is a string prefix of
the path. -/
def isFileInOutDir (uriPath : String) (projects : List (String × TsProject)) : Bool :=
  projects.any (fun e =>
    match getAbsoluteOutDir e.1 e.2.cfg with
    | some d => jsStartsWith uriPath d
    | none => false)

/-- `isTsFile`. -/
def isTsFile (uriPath : String) : Bool :=
  jsEndsWith uriPath ".ts" || jsEndsWith uriPath ".tsx"

/-- `discoverTsConfigJsonsAsync`: tsconfig files under the folder, minus
`node_modules`, parsed and stably sorted deepest-first by
`-path.split('/').length`. -/
def discoverTsConfigJsons (env : Env) (folder : WsFolder) : List (String × TsConfigJson) :=
  let found := env.tsconfigs.filter (fun t =>
    jsStartsWith t.path (folder.path ++ "/") && ! jsIncludes t.path "node_modules/")
  let entries := found.map (fun t => (pDirname t.path, t.cfg))
  let depth := fun (e : String × TsConfigJson) => (rawSegs e.1).length
  entries.foldl
    (fun sorted e =>
      (sorted.takeWhile (fun x => depth e ≤ depth x)) ++ [e]
        ++ (sorted.dropWhile (fun x => depth e ≤ depth x)))
    []

/-- A file path lies strictly inside a project's resolved build-output
directory. -/
def underOutDir (p tsProjectPath : String) (cfg : TsConfigJson) : Bool :=
  match getAbsoluteOutDir tsProjectPath cfg with
  | some d => jsStartsWith p (d ++ "/")
  | none => false

/-- A file lies strictly inside the resolved outDir of one of the given
configs (the exclude glob `outDirRelative + '/**'`). -/
def inSomeOutDir (p : String) (cfgs : List (String × TsConfigJson)) : Bool :=
  cfgs.any (fun c => underOutDir p c.1 c.2)

/-- Model of the findFiles call of `makeWorkspaceAsync` — include glob for
TypeScript files under the folder, exclude globs for node_modules and for
everything inside any discovered project's resolved outDir. -/
def scanTsFiles (env : Env) (folder : WsFolder)
    (cfgs : List (String × TsConfigJson)) : List String :=
  env.tsFiles.filter (fun p =>
    jsStartsWith p (folder.path ++ "/") && isTsFile p
      && ! jsIncludes p "node_modules/"
      && ! inSomeOutDir p cfgs)

/-- One iteration of the population loop: evaluate the file for the project
and push the record into the right bucket. -/
def addEvalRecord (workspaceFolderPath tsProjectPath : String) (proj : TsProject)
    (uriPath : String) : TsProject :=
  match evaluateModuleForTsProject tsProjectPath proj.cfg workspaceFolderPath uriPath with
  | .bareImport n ip =>
    { proj with bare := bucketPush proj.bare (firstChar n) ⟨n, ip, uriPath⟩ }
  | .relativeImport n =>
    { proj with rel := bucketPush proj.rel (firstChar n) ⟨n, uriPath⟩ }
  | .importDisallowed => proj

/-- The delete-handler counterpart: filter the record with this owning file
path out of the bucket the evaluation points at. -/
def removeEvalRecord (workspaceFolderPath tsProjectPath : String) (proj : TsProject)
    (uriPath : String) : TsProject :=
  match evaluateModuleForTsProject tsProjectPath proj.cfg workspaceFolderPath uriPath with
  | .bareImport n _ =>
    { proj with
      bare := bucketFilterAt proj.bare (firstChar n) (fun r => r.tsFilePath ≠ uriPath) }
  | .relativeImport n =>
    { proj with
      rel := bucketFilterAt proj.rel (firstChar n) (fun r => r.tsFilePath ≠ uriPath) }
  | .importDisallowed => proj

/-- `makeWorkspaceAsync`: discover configs, scan files, populate every
project's buckets, compute the owner map. -/
def makeWorkspace (env : Env) (folder : WsFolder) : Workspace :=
  let cfgs := discoverTsConfigJsons env folder
  let files := scanTsFiles env folder cfgs
  let projects := cfgs.map (fun c =>
    (c.1, files.foldl (fun proj u => addEvalRecord folder.path c.1 proj u)
            ⟨c.2, [], []⟩))
  let owner := files.foldl
    (fun m f =>
      match findOwnerTsProjectForTsFile f (projects.map (fun e => e.1)) with
      | some pp => aSet m f pp
      | none => m)
    []
  ⟨folder, projects, owner⟩

/-- `updateWorkspaceByNameInPlaceAsync` on a fresh map, i.e. the body of
`resetAsync` and of the initial constructor. -/
def buildService (env : Env) (folders : List WsFolder) : Service :=
  folders.foldl (fun m f => aSet m f.name (makeWorkspace env f)) []

/-- `resetAsync`: rebuild every currently tracked folder from scratch. -/
def resetService (env : Env) (svc : Service) : Service :=
  buildService env (svc.map (fun e => e.2.folder))

/-- `checkChangedFileAndGetWorkspace`: workspace-folder lookup, state lookup,
then the node_modules / outDir exclusion. -/
def checkChangedFileAndGetWorkspace (env : Env) (svc : Service) (uriPath : String) :
    Option (String × Workspace) :=
  match getWorkspaceFolder env uriPath with
  | none => none
  | some f =>
    match aGet svc f.name with
    | none => none
    | some ws =>
      if jsIncludes uriPath "node_modules/" || isFileInOutDir uriPath ws.tsProjectByPath
      then none
      else some (f.name, ws)

/-- `handleFileCreatedAsync`. -/
def handleFileCreated (env : Env) (svc : Service) (uriPath : String) : Service :=
  if pBasename uriPath = "tsconfig.json" then resetService env svc
  else if ¬ isTsFile uriPath then svc
  else
    match checkChangedFileAndGetWorkspace env svc uriPath with
    | none => svc
    | some (n, ws) =>
      let projects := ws.tsProjectByPath.map (fun e =>
        (e.1, addEvalRecord ws.folder.path e.1 e.2 uriPath))
      let owner :=
        match findOwnerTsProjectForTsFile uriPath (projects.map (fun e => e.1)) with
        | some pp => aSet ws.ownerByFile uriPath pp
        | none => ws.ownerByFile
      aSet svc n ⟨ws.folder, projects, owner⟩

/-- `handleFileDeletedAsync`. -/
def handleFileDeleted (env : Env) (svc : Service) (uriPath : String) : Service :=
  match checkChangedFileAndGetWorkspace env svc uriPath with
  | none => svc
  | some (n, ws) =>
    if pExtname uriPath = "" then
      if ws.tsProjectByPath.any (fun e => jsStartsWith e.1 uriPath) then
        resetService env svc
      else
        let projects := ws.tsProjectByPath.map (fun e =>
          (e.1, { e.2 with
            bare := e.2.bare.map (fun b =>
              (b.1, b.2.filter (fun r => ¬ jsStartsWith r.tsFilePath uriPath))),
            rel := e.2.rel.map (fun b =>
              (b.1, b.2.filter (fun r => ¬ jsStartsWith r.tsFilePath uriPath))) }))
        let owner := ws.ownerByFile.filter (fun e => ¬ jsStartsWith e.1 uriPath)
        aSet svc n ⟨ws.folder, projects, owner⟩
    else if pBasename uriPath = "tsconfig.json" then resetService env svc
    else if ¬ isTsFile uriPath then svc
    else
      let projects := ws.tsProjectByPath.map (fun e =>
        (e.1, removeEvalRecord ws.folder.path e.1 e.2 uriPath))
      let owner := aErase ws.ownerByFile uriPath
      aSet svc n ⟨ws.folder, projects, owner⟩

/-- `handleFileChangedAsync`. -/
def handleFileChanged (env : Env) (svc : Service) (uriPath : String) : Service :=
  if pBasename uriPath = "tsconfig.json" then resetService env svc else svc

/-- The relative import path `getModulesForCompletion` computes for a record:
path relative to the current file's directory, `./`-prefixed when it does not
already climb, extension stripped. -/
def relativeImportPath (currentFileDirPath tsFilePath : String) : String :=
  let withExt :=
    let w := pRelative currentFileDirPath tsFilePath
    if ! jsStartsWith w ".." then "./" ++ w else w
  pathWithoutExt withExt

/-- `getModulesForCompletion`.  The single partial operation inside it —
`u.map.getOrThrow(workspace.tsProjectByPath, currentProjectPath)` — is made
explicit: a miss there is `.error` (the thrown assertion), every other miss
returns `.ok []` as the source does. -/
def getModulesForCompletion (env : Env) (svc : Service) (uriPath query : String) :
    Except String (List ModuleForCompletion) :=
  match checkChangedFileAndGetWorkspace env svc uriPath with
  | none => .ok []
  | some (_, ws) =>
    match aGet ws.ownerByFile uriPath with
    | none => .ok []
    | some currentProjectPath =>
      match aGet ws.tsProjectByPath currentProjectPath with
      | none => .error "assert failed"
      | some currentProject =>
        let fc := firstChar query
        let bareBucket := (aGet currentProject.bare fc).getD []
        let acc := bareBucket.foldl
          (fun acc r =>
            if r.tsFilePath = uriPath then acc
            else acc ++ [ModuleForCompletion.mk r.moduleName r.importPath])
          []
        let currentFileDirPath := pDirname uriPath
        let relBucket := (aGet currentProject.rel fc).getD []
        let acc := relBucket.foldl
          (fun acc r =>
            if r.tsFilePath = uriPath then acc
            else acc ++ [ModuleForCompletion.mk r.moduleName
                          (relativeImportPath currentFileDirPath r.tsFilePath)])
          acc
        .ok acc

/-- States of the service reachable from the constructor (a full build of
the registered folders) through any sequence of file events, each observing
the then-current filesystem. -/
inductive Reachable : Service → Prop where
  | init (env : Env) (folders : List WsFolder) : Reachable (buildService env folders)
  | created (env : Env) (svc : Service) (uriPath : String) :
      Reachable svc → Reachable (handleFileCreated env svc uriPath)
  | deleted (env : Env) (svc : Service) (uriPath : String) :
      Reachable svc → Reachable (handleFileDeleted env svc uriPath)
  | changed (env : Env) (svc : Service) (uriPath : String) :
      Reachable svc → Reachable (handleFileChanged env svc uriPath)

/-- The owning file paths of every record of a project, across both maps and
all buckets. -/
def trackedFiles (proj : TsProject) : List String :=
  (proj.bare.flatMap (fun b => b.2)).map (fun r => r.tsFilePath)
    ++ (proj.rel.flatMap (fun b => b.2)).map (fun r => r.tsFilePath)

/-- Invariant for C3: no record anywhere in a workspace owns a file lying
under any of that workspace's projects' build-output directories. -/
def NoOutDirRecords (svc : Service) : Prop :=
  ∀ nws ∈ svc, ∀ e ∈ nws.2.tsProjectByPath, ∀ p ∈ trackedFiles e.2,
    ∀ e2 ∈ nws.2.tsProjectByPath, underOutDir p e2.1 e2.2.cfg = false

/-- Invariant for C9: every value of the owner map is a key of the project
map. -/
def OwnerKeysValid (svc : Service) : Prop :=
  ∀ nws ∈ svc, ∀ e ∈ nws.2.ownerByFile,
    e.2 ∈ nws.2.tsProjectByPath.map (fun x => x.1)

/-! ### Concrete fixtures -/

/-- A single workspace folder named `ws` at `/ws`. -/
def exFolder : WsFolder := ⟨"ws", "/ws"⟩

/-- A world with a root project whose outDir is `dist`, a second project
whose tsconfig sits inside `dist`, and two TypeScript files. -/
def exEnvBefore : Env :=
  ⟨[exFolder],
   [⟨"/ws/tsconfig.json", ⟨none, none, some "dist"⟩⟩,
    ⟨"/ws/dist/tsconfig.json", ⟨none, none, none⟩⟩],
   ["/ws/a.ts", "/ws/dist/b.ts"]⟩

/-- The same world after `/ws/dist/tsconfig.json` is deleted. -/
def exEnvAfter : Env :=
  ⟨[exFolder],
   [⟨"/ws/tsconfig.json", ⟨none, none, some "dist"⟩⟩],
   ["/ws/a.ts", "/ws/dist/b.ts"]⟩

/-- The service state built from `exEnvBefore`. -/
def exSvc : Service := buildService exEnvBefore [exFolder]

/-- A hand-built project for query theorems: one bare record and one
relative record under the first character `f`, together with records owned
by the querying file itself. -/
def exQueryProj : TsProject :=
  ⟨⟨none, none, none⟩,
   [("f", [⟨"fooBar", "@/foo_bar", "/ws/src/foo_bar.ts"⟩,
           ⟨"fooCur", "@/cur", "/ws/cur.ts"⟩])],
   [("f", [⟨"fooRel", "/ws/lib/foo_rel.ts"⟩, ⟨"fooCur", "/ws/cur.ts"⟩])]⟩

/-- A hand-built workspace holding `exQueryProj` at the workspace root. -/
def exQueryWs : Workspace :=
  ⟨exFolder, [("/ws", exQueryProj)], [("/ws/cur.ts", "/ws")]⟩

/-- Service state holding `exQueryWs`. -/
def exQuerySvc : Service := [("ws", exQueryWs)]

/-- Environment for the query fixtures (only the folder list is consulted). -/
def exQueryEnv : Env := ⟨[exFolder], [], []⟩

/-! ## Lemmas -/

theorem str_eq_of_data {a b : String} (h : a.data = b.data) : a = b := by
  cases a; cases b; cases h; rfl

theorem startsWith_isPre {a b : String} (h : jsStartsWith a b = true) : b.data <+: a.data := by
  simpa [jsStartsWith, List.isPrefixOf_iff_prefix] using h

theorem startsWith_of_startsWith_slash {a d : String}
    (h : jsStartsWith a (d ++ "/") = true) : jsStartsWith a d = true := by
  have h1 : (d ++ "/").data <+: a.data := startsWith_isPre h
  have h2 : d.data <+: (d ++ "/").data := by
    rw [String.data_append]; exact List.prefix_append _ _
  simpa [jsStartsWith, List.isPrefixOf_iff_prefix] using h2.trans h1

theorem mem_aSet {α : Type} {m : List (String × α)} {k : String} {v : α} {e : String × α}
    (h : e ∈ aSet m k v) : e ∈ m ∨ e = (k, v) := by
  unfold aSet at h
  by_cases hs : (m.find? (fun x => x.1 = k)).isSome
  · simp only [hs, if_true] at h
    rcases List.mem_map.mp h with ⟨x, hx, hxe⟩
    by_cases hk : x.1 = k
    · simp only [hk, if_true] at hxe; exact Or.inr hxe.symm
    · simp only [hk, if_false] at hxe; exact Or.inl (hxe ▸ hx)
  · simp only [hs, if_false] at h
    rcases List.mem_append.mp h with h | h
    · exact Or.inl h
    · exact Or.inr (by simpa using h)

theorem aGet_mem {α : Type} {m : List (String × α)} {k : String} {v : α}
    (h : aGet m k = some v) : (k, v) ∈ m := by
  unfold aGet at h
  cases hf : m.find? (fun x => x.1 = k) with
  | none => rw [hf] at h; simp at h
  | some e =>
    rw [hf] at h
    have hm := List.mem_of_find?_eq_some hf
    have hk : e.1 = k := by simpa using List.find?_some hf
    have hv : e.2 = v := by simpa using h
    have : (k, v) = e := by
      cases e; simp at hk hv; simp [hk, hv]
    exact this ▸ hm

theorem mem_keys_aGet {α : Type} {m : List (String × α)} {k : String}
    (h : k ∈ m.map (fun x => x.1)) : ∃ v, aGet m k = some v := by
  unfold aGet
  cases hf : m.find? (fun x => x.1 = k) with
  | none =>
    rcases List.mem_map.mp h with ⟨x, hx, hxk⟩
    have := (List.find?_eq_none.mp hf) x hx
    simp [hxk] at this
  | some e => exact ⟨e.2, rfl⟩

theorem mem_of_mem_bucketPush {α : Type} {m : List (String × List α)} {k : String} {v : α}
    {e : String × List α} {x : α} (he : e ∈ bucketPush m k v) (hx : x ∈ e.2) :
    (∃ l, (e.1, l) ∈ m ∧ x ∈ l) ∨ x = v := by
  rcases mem_aSet he with h | h
  · exact Or.inl ⟨e.2, h, hx⟩
  · rw [h] at hx
    simp only at hx
    rcases List.mem_append.mp hx with hx | hx
    · cases hg : aGet m k with
      | none => rw [hg] at hx; simp at hx
      | some l =>
        rw [hg] at hx
        simp only [Option.getD_some] at hx
        exact Or.inl ⟨l, by rw [h]; exact aGet_mem hg, hx⟩
    · simp at hx; exact Or.inr hx

theorem mem_of_mem_bucketFilterAt {α : Type} {m : List (String × List α)} {k : String}
    {keep : α → Bool} {e : String × List α} {x : α}
    (he : e ∈ bucketFilterAt m k keep) (hx : x ∈ e.2) :
    ∃ l, (e.1, l) ∈ m ∧ x ∈ l := by
  unfold bucketFilterAt at he
  cases hg : aGet m k with
  | none => rw [hg] at he; exact ⟨e.2, he, hx⟩
  | some recs =>
    rw [hg] at he
    rcases mem_aSet he with h | h
    · exact ⟨e.2, h, hx⟩
    · rw [h] at hx
      simp only at hx
      exact ⟨recs, by rw [h]; exact aGet_mem hg, (List.mem_filter.mp hx).1⟩

/-! Lemmas about `u.max` by path length and the ownership lookup. -/

theorem foldlMaxLen_mem : ∀ (cs : List String) (c : String),
    cs.foldl (fun cur x => if jsLen cur < jsLen x then x else cur) c ∈ c :: cs := by
  intro cs
  induction cs with
  | nil => intro c; simp
  | cons x xs ih =>
    intro c
    simp only [List.foldl_cons]
    rcases List.mem_cons.mp (ih (if jsLen c < jsLen x then x else c)) with h | h
    · rw [h]
      by_cases hc : jsLen c < jsLen x
      · simp [hc, List.mem_cons]
      · simp [hc, List.mem_cons]
    · exact List.mem_cons.mpr (Or.inr (List.mem_cons.mpr (Or.inr h)))

theorem foldlMaxLen_ge : ∀ (cs : List String) (c q : String), q ∈ c :: cs →
    jsLen q ≤ jsLen (cs.foldl (fun cur x => if jsLen cur < jsLen x then x else cur) c) := by
  intro cs
  induction cs with
  | nil => intro c q hq; simp at hq; simp [hq]
  | cons x xs ih =>
    intro c q hq
    simp only [List.foldl_cons]
    have hseed : jsLen c ≤ jsLen (if jsLen c < jsLen x then x else c)
        ∧ jsLen x ≤ jsLen (if jsLen c < jsLen x then x else c) := by
      by_cases hc : jsLen c < jsLen x <;> simp [hc] <;> omega
    have hmono := ih (if jsLen c < jsLen x then x else c)
      (if jsLen c < jsLen x then x else c) (List.mem_cons_self _ _)
    rcases List.mem_cons.mp hq with h | h
    · subst h; exact le_trans hseed.1 hmono
    · rcases List.mem_cons.mp h with h | h
      · subst h; exact le_trans hseed.2 hmono
      · exact ih _ q (List.mem_cons.mpr (Or.inr h))

theorem findOwner_spec {u : String} {l : List String} {r : String}
    (h : findOwnerTsProjectForTsFile u l = some r) :
    r ∈ l ∧ jsStartsWith u r = true
      ∧ ∀ q ∈ l, jsStartsWith u q = true → jsLen q ≤ jsLen r := by
  unfold findOwnerTsProjectForTsFile at h
  cases hc : l.filter (fun pp => jsStartsWith u pp) with
  | nil => rw [hc] at h; simp at h
  | cons c cs =>
    rw [hc] at h
    simp only [Option.some.injEq] at h
    have hmem : r ∈ c :: cs := h ▸ foldlMaxLen_mem cs c
    have hmemf : r ∈ l.filter (fun pp => jsStartsWith u pp) := hc ▸ hmem
    have hrl := List.mem_filter.mp hmemf
    refine ⟨hrl.1, hrl.2, ?_⟩
    intro q hq hqs
    have hqf : q ∈ c :: cs := by
      rw [← hc]; exact List.mem_filter.mpr ⟨hq, hqs⟩
    exact h ▸ foldlMaxLen_ge cs c q hqf

theorem findOwner_mem_keys {u : String} {l : List String} {r : String}
    (h : findOwnerTsProjectForTsFile u l = some r) : r ∈ l :=
  (findOwner_spec h).1

/-! ## Claim theorems (resolver and old-generation paths) -/

/-- C1: for a project rooted at the workspace folder `/ws` with alias map
mapping the pattern `@/*` to the single target `src/*`, no base directory,
the candidate `/ws/src/foo_bar.ts` resolves to a bare import with import
path `@/foo_bar` and module name `fooBar`. -/
theorem bare_alias_resolution_foo_bar :
    evaluateModuleForTsProject "/ws" ⟨none, some [("@/*", ["src/*"])], none⟩ "/ws"
      "/ws/src/foo_bar.ts"
      = .bareImport "fooBar" "@/foo_bar" := by
  decide

/-- C2: whenever the ownership lookup returns an owner, that owner is a
registered project root, is a string prefix of the file path, and every
registered root that is a prefix of the file path is no longer than it (and
one of equal length is equal to it, prefixes of a common string being
comparable); in particular with roots `/ws/a` and `/ws/a/b` the owner of
`/ws/a/b/x.ts` is `/ws/a/b`. -/
theorem owner_is_longest_prefix :
    (∀ (u : String) (l : List String) (r : String),
      findOwnerTsProjectForTsFile u l = some r →
        r ∈ l ∧ jsStartsWith u r = true
          ∧ ∀ q ∈ l, jsStartsWith u q = true →
              jsLen q ≤ jsLen r ∧ (jsLen q = jsLen r → q = r))
    ∧ findOwnerTsProjectForTsFile "/ws/a/b/x.ts" ["/ws/a", "/ws/a/b"] = some "/ws/a/b" := by
  constructor
  · intro u l r h
    obtain ⟨hmem, hpre, hmax⟩ := findOwner_spec h
    refine ⟨hmem, hpre, fun q hq hqs => ⟨hmax q hq hqs, fun hlen => ?_⟩⟩
    have h1 : q.data <+: u.data := startsWith_isPre hqs
    have h2 : r.data <+: u.data := startsWith_isPre hpre
    have h3 : q.data <+: r.data :=
      List.prefix_of_prefix_length_le h1 h2 (le_of_eq hlen)
    exact str_eq_of_data (h3.eq_of_length hlen)
  · decide

/-- Witness for C2 at the concrete nested-roots instance. -/
theorem owner_is_longest_prefix_witness :
    jsStartsWith "/ws/a/b/x.ts" "/ws/a/b" = true ∧ jsLen "/ws/a" ≤ jsLen "/ws/a/b" := by
  have h := owner_is_longest_prefix.1 "/ws/a/b/x.ts" ["/ws/a", "/ws/a/b"] "/ws/a/b"
    (by decide)
  exact ⟨h.2.1, (h.2.2 "/ws/a" (by decide) (by decide)).1⟩

/-- C10: ownership candidacy is raw string prefix, not directory ancestry:
with the single project root `/ws/a`, the file `/ws/ab/x.ts` is owned by
`/ws/a` although `/ws/a` is not a directory ancestor of it. -/
theorem owner_by_string_prefix_not_ancestry :
    findOwnerTsProjectForTsFile "/ws/ab/x.ts" ["/ws/a"] = some "/ws/a"
      ∧ jsStartsWith "/ws/ab/x.ts" ("/ws/a" ++ "/") = false := by
  decide

/-- C7: when no alias matched, a base directory is declared, and the
candidate lies under it by string prefix, `makeBareImportPath` produces the
base-directory import path exactly when it does not collide with the
pattern side of some `paths` entry; on a collision it returns `none`. -/
theorem baseurl_fallback_guarded_by_conflict (tsProjectPath : String)
    (cfg : TsConfigJson) (workspaceFolderPath moduleUriPath b : String)
    (h1 : matchPathPatternForProject tsProjectPath cfg workspaceFolderPath moduleUriPath
            = none)
    (h2 : cfg.baseUrl = some b)
    (h3 : jsStartsWith moduleUriPath (pResolve tsProjectPath b) = true) :
    makeBareImportPath tsProjectPath cfg workspaceFolderPath moduleUriPath =
      (if doesImportPathViaBaseUrlConflictWithPathsMapping
            (pRelative (pResolve tsProjectPath b) moduleUriPath) cfg
       then none
       else some (pathWithoutExt (pRelative (pResolve tsProjectPath b) moduleUriPath))) := by
  unfold makeBareImportPath
  rw [h1, h2]
  simp [h3]

/-- Witness for C7: a project at `/ws` with baseUrl `.` and an alias pattern
`lib/*` pointing elsewhere; the alias does not match `/ws/lib/x.ts`, the file
is under the base directory, yet the fallback collides with the `lib/*`
pattern side, so bare resolution fails. -/
theorem baseurl_fallback_guarded_by_conflict_witness :
    makeBareImportPath "/ws" ⟨some ".", some [("lib/*", ["elsewhere/*"])], none⟩ "/ws"
      "/ws/lib/x.ts" = none := by
  rw [baseurl_fallback_guarded_by_conflict "/ws"
    ⟨some ".", some [("lib/*", ["elsewhere/*"])], none⟩ "/ws" "/ws/lib/x.ts" "."
    (by decide) rfl (by decide)]
  decide

/-- C8: the current `matchPathPatternForProject` does not short-circuit an
alias entry whose target list contains the sentinel
`dummy-value-so-nothing-is-resolved`: with targets `[sentinel, src/*]` it
still produces `@foo/x.ts` through that entry, while the older
`_matchPathPatternForProject` skips the whole entry and produces nothing. -/
theorem sentinel_entry_not_short_circuited :
    matchPathPatternForProject "/ws"
        ⟨none, some [("@foo/*", ["dummy-value-so-nothing-is-resolved", "src/*"])], none⟩
        "/ws" "/ws/src/x.ts"
      = some "@foo/x.ts"
    ∧ matchPathPatternForProjectOld "src/x.ts"
        (some [("@foo/*", ["dummy-value-so-nothing-is-resolved", "src/*"])])
        "/ws" "/ws"
      = none := by
  decide

/-- C4: `CompletionItemMapImpl.removeItem` filters by object identity, so
removing a freshly reconstructed item (equal fields, different identity)
removes nothing, and re-adding it leaves the bucket with a stale duplicate
instead of restoring the pre-delete state. -/
theorem identity_removal_leaves_stale_record :
    removeItem [("f", [⟨"foo", "foo", 0⟩])] ⟨"foo", "foo", 1⟩
      = [("f", [⟨"foo", "foo", 0⟩])]
    ∧ getItemsAt
        (putItem (removeItem [("f", [⟨"foo", "foo", 0⟩])] ⟨"foo", "foo", 1⟩)
          ⟨"foo", "foo", 1⟩) "f"
      = [⟨"foo", "foo", 0⟩, ⟨"foo", "foo", 1⟩]
    ∧ handleFileCreated exEnvBefore (handleFileDeleted exEnvBefore exSvc "/ws/a.ts")
        "/ws/a.ts" = exSvc := by
  refine ⟨by decide, by decide, by decide⟩

/-! ## Lemmas about workspace building -/

theorem mem_buildService_aux {env : Env} : ∀ (folders : List WsFolder) (acc : Service)
    {n : String} {ws : Workspace},
    (n, ws) ∈ folders.foldl (fun m f => aSet m f.name (makeWorkspace env f)) acc →
    (n, ws) ∈ acc ∨ ∃ f, ws = makeWorkspace env f := by
  intro folders
  induction folders with
  | nil => intro acc n ws h; exact Or.inl h
  | cons f fs ih =>
    intro acc n ws h
    simp only [List.foldl_cons] at h
    rcases ih _ h with h | h
    · rcases mem_aSet h with h | h
      · exact Or.inl h
      · exact Or.inr ⟨f, congrArg Prod.snd h⟩
    · exact Or.inr h

theorem mem_buildService {env : Env} {folders : List WsFolder} {n : String} {ws : Workspace}
    (h : (n, ws) ∈ buildService env folders) : ∃ f, ws = makeWorkspace env f := by
  rcases mem_buildService_aux folders [] h with h | h
  · simp at h
  · exact h

theorem mem_resetService {env : Env} {svc : Service} {n : String} {ws : Workspace}
    (h : (n, ws) ∈ resetService env svc) : ∃ f, ws = makeWorkspace env f :=
  mem_buildService h

theorem makeWorkspace_folder (env : Env) (f : WsFolder) :
    (makeWorkspace env f).folder = f := rfl

theorem keys_map_pair {α β : Type} (l : List (String × α)) (f : String × α → β) :
    (l.map (fun e => (e.1, f e))).map (fun x => x.1) = l.map (fun e => e.1) := by
  induction l with
  | nil => rfl
  | cons e t ih => simp [ih]

theorem makeWorkspace_keys (env : Env) (f : WsFolder) :
    (makeWorkspace env f).tsProjectByPath.map (fun e => e.1)
      = (discoverTsConfigJsons env f).map (fun e => e.1) := by
  unfold makeWorkspace
  exact keys_map_pair _ _

theorem check_some {env : Env} {svc : Service} {u n : String} {ws : Workspace}
    (h : checkChangedFileAndGetWorkspace env svc u = some (n, ws)) :
    (n, ws) ∈ svc ∧ jsIncludes u "node_modules/" = false
      ∧ isFileInOutDir u ws.tsProjectByPath = false := by
  unfold checkChangedFileAndGetWorkspace at h
  cases hf : getWorkspaceFolder env u with
  | none => simp only [hf] at h; exact Option.noConfusion h
  | some f =>
    simp only [hf] at h
    cases hg : aGet svc f.name with
    | none => simp only [hg] at h; exact Option.noConfusion h
    | some ws0 =>
      simp only [hg] at h
      by_cases hcond :
          (jsIncludes u "node_modules/" || isFileInOutDir u ws0.tsProjectByPath) = true
      · rw [if_pos hcond] at h; exact absurd h (by simp)
      · rw [if_neg hcond] at h
        have hpair : f.name = n ∧ ws0 = ws := by
          simpa [Prod.ext_iff] using h
        obtain ⟨rfl, rfl⟩ := hpair
        have hc := Bool.or_eq_false_iff.mp (Bool.eq_false_iff.mpr hcond)
        exact ⟨aGet_mem hg, hc.1, hc.2⟩

/-! ## C5: configuration events and rebuilds -/

/-- C5 counterexample: in `exEnvBefore` the project at `/ws/dist` (whose
tsconfig sits inside the root project's outDir) is tracked; deleting its
tsconfig leaves the service state completely unchanged — still holding the
removed project — whereas a rebuild from the post-delete world drops it. -/
theorem config_delete_event_dropped :
    handleFileDeleted exEnvAfter exSvc "/ws/dist/tsconfig.json" = exSvc
    ∧ (aGet exSvc "ws").map (fun ws => ws.tsProjectByPath.map (fun e => e.1))
        = some ["/ws/dist", "/ws"]
    ∧ (aGet (buildService exEnvAfter [exFolder]) "ws").map
        (fun ws => ws.tsProjectByPath.map (fun e => e.1)) = some ["/ws"] := by
  refine ⟨by decide, by decide, by decide⟩

/-- C5 (amended): a created or changed tsconfig.json always triggers a full
rebuild of every tracked folder; a deleted tsconfig.json triggers it only
when the changed-file check passes (tracked folder, not in node_modules,
not inside a resolved outDir) — otherwise the event is dropped.  After any
rebuild each workspace holds exactly the projects discovered from the
configuration files now present. -/
theorem config_events_trigger_rebuild (env : Env) (svc : Service) (uriPath : String)
    (h : pBasename uriPath = "tsconfig.json") :
    handleFileChanged env svc uriPath = resetService env svc
    ∧ handleFileCreated env svc uriPath = resetService env svc
    ∧ (∀ n ws, checkChangedFileAndGetWorkspace env svc uriPath = some (n, ws) →
        handleFileDeleted env svc uriPath = resetService env svc)
    ∧ (∀ n ws, (n, ws) ∈ resetService env svc →
        ws.tsProjectByPath.map (fun e => e.1)
          = (discoverTsConfigJsons env ws.folder).map (fun e => e.1)) := by
  have hex : pExtname uriPath = ".json" := by
    unfold pExtname
    rw [h]
    rfl
  refine ⟨?_, ?_, ?_, ?_⟩
  · unfold handleFileChanged; rw [if_pos h]
  · unfold handleFileCreated; rw [if_pos h]
  · intro n ws hc
    unfold handleFileDeleted
    rw [hc]
    simp only [hex, h]
    rfl
  · intro n ws hm
    obtain ⟨f, rfl⟩ := mem_resetService hm
    rw [makeWorkspace_folder]
    exact makeWorkspace_keys env f

/-- Witness for C5 (amended): a changed tsconfig on the query fixture
triggers the rebuild. -/
theorem config_events_trigger_rebuild_witness :
    handleFileChanged exQueryEnv exQuerySvc "/ws/tsconfig.json"
      = resetService exQueryEnv exQuerySvc :=
  (config_events_trigger_rebuild exQueryEnv exQuerySvc "/ws/tsconfig.json" (by decide)).1

/-! ## C6: the query operation -/

theorem foldl_skip_append {α : Type} (key : α → String) (uriPath : String)
    (g : α → ModuleForCompletion) :
    ∀ (l : List α) (acc : List ModuleForCompletion),
      l.foldl (fun acc r => if key r = uriPath then acc else acc ++ [g r]) acc
        = acc ++ (l.filter (fun r => key r ≠ uriPath)).map g := by
  intro l
  induction l with
  | nil => intro acc; simp
  | cons r rs ih =>
    intro acc
    simp only [List.foldl_cons]
    by_cases hr : key r = uriPath
    · rw [if_pos hr, ih]
      simp [List.filter_cons, hr]
    · rw [if_neg hr, ih]
      simp [List.filter_cons, hr]

theorem bare_fold_spec (uriPath : String) (l : List ModuleForBareImport)
    (acc : List ModuleForCompletion) :
    l.foldl (fun acc r => if r.tsFilePath = uriPath then acc
        else acc ++ [ModuleForCompletion.mk r.moduleName r.importPath]) acc
      = acc ++ (l.filter (fun r => r.tsFilePath ≠ uriPath)).map
          (fun r => ModuleForCompletion.mk r.moduleName r.importPath) :=
  foldl_skip_append (fun r => r.tsFilePath) uriPath _ l acc

theorem rel_fold_spec (uriPath dir : String) (l : List ModuleForRelativeImport)
    (acc : List ModuleForCompletion) :
    l.foldl (fun acc r => if r.tsFilePath = uriPath then acc
        else acc ++ [ModuleForCompletion.mk r.moduleName
          (relativeImportPath dir r.tsFilePath)]) acc
      = acc ++ (l.filter (fun r => r.tsFilePath ≠ uriPath)).map
          (fun r => ModuleForCompletion.mk r.moduleName
            (relativeImportPath dir r.tsFilePath)) :=
  foldl_skip_append (fun r => r.tsFilePath) uriPath _ l acc

/-- C6: when the changed-file check passes, the current file has an owner
and the owner's project is present, `getModulesForCompletion` returns
exactly the owner project's two buckets for the first character of the
query: the stored bare records, then the relative records with their import
path computed against the current file's directory — in both cases dropping
every record owned by the current file itself. -/
theorem query_returns_owner_buckets (env : Env) (svc : Service) (uriPath query : String)
    (n : String) (ws : Workspace) (pp : String) (proj : TsProject)
    (h1 : checkChangedFileAndGetWorkspace env svc uriPath = some (n, ws))
    (h2 : aGet ws.ownerByFile uriPath = some pp)
    (h3 : aGet ws.tsProjectByPath pp = some proj) :
    getModulesForCompletion env svc uriPath query = .ok
      ((((aGet proj.bare (firstChar query)).getD []).filter
          (fun r => r.tsFilePath ≠ uriPath)).map
            (fun r => ModuleForCompletion.mk r.moduleName r.importPath)
       ++ (((aGet proj.rel (firstChar query)).getD []).filter
          (fun r => r.tsFilePath ≠ uriPath)).map
            (fun r => ModuleForCompletion.mk r.moduleName
                (relativeImportPath (pDirname uriPath) r.tsFilePath))) := by
  unfold getModulesForCompletion
  simp only [h1, h2, h3]
  rw [bare_fold_spec, rel_fold_spec]
  simp

/-- Witness for C6 on the hand-built fixture: the two non-current records
come back, the current file's own records do not. -/
theorem query_returns_owner_buckets_witness :
    getModulesForCompletion exQueryEnv exQuerySvc "/ws/cur.ts" "foo" = .ok
      [⟨"fooBar", "@/foo_bar"⟩, ⟨"fooRel", "./lib/foo_rel"⟩] := by
  rw [query_returns_owner_buckets exQueryEnv exQuerySvc "/ws/cur.ts" "foo" "ws" exQueryWs
    "/ws" exQueryProj (by decide) (by decide) (by decide)]
  rfl

/-! ## Record-tracking lemmas for the service invariants -/

theorem addEvalRecord_cfg (wf pp : String) (proj : TsProject) (u : String) :
    (addEvalRecord wf pp proj u).cfg = proj.cfg := by
  unfold addEvalRecord
  cases evaluateModuleForTsProject pp proj.cfg wf u <;> rfl

theorem removeEvalRecord_cfg (wf pp : String) (proj : TsProject) (u : String) :
    (removeEvalRecord wf pp proj u).cfg = proj.cfg := by
  unfold removeEvalRecord
  cases evaluateModuleForTsProject pp proj.cfg wf u <;> rfl

theorem foldl_addEval_cfg (wf pp : String) : ∀ (files : List String) (init : TsProject),
    (files.foldl (fun proj u => addEvalRecord wf pp proj u) init).cfg = init.cfg := by
  intro files
  induction files with
  | nil => intro init; rfl
  | cons u us ih =>
    intro init
    simp only [List.foldl_cons]
    rw [ih, addEvalRecord_cfg]

theorem trackedFiles_bare_push {proj : TsProject} {k : String} {r : ModuleForBareImport}
    {p : String} (h : p ∈ trackedFiles { proj with bare := bucketPush proj.bare k r }) :
    p ∈ trackedFiles proj ∨ p = r.tsFilePath := by
  unfold trackedFiles at h ⊢
  simp only at h
  rcases List.mem_append.mp h with h | h
  · rcases List.mem_map.mp h with ⟨x, hx, hxp⟩
    rcases List.mem_flatMap.mp hx with ⟨e, he, hxe⟩
    rcases mem_of_mem_bucketPush he hxe with ⟨l, hl, hxl⟩ | hxr
    · left
      exact List.mem_append.mpr (Or.inl (List.mem_map.mpr
        ⟨x, List.mem_flatMap.mpr ⟨(e.1, l), hl, hxl⟩, hxp⟩))
    · right; rw [← hxp, hxr]
  · left; exact List.mem_append.mpr (Or.inr h)

theorem trackedFiles_rel_push {proj : TsProject} {k : String} {r : ModuleForRelativeImport}
    {p : String} (h : p ∈ trackedFiles { proj with rel := bucketPush proj.rel k r }) :
    p ∈ trackedFiles proj ∨ p = r.tsFilePath := by
  unfold trackedFiles at h ⊢
  simp only at h
  rcases List.mem_append.mp h with h | h
  · left; exact List.mem_append.mpr (Or.inl h)
  · rcases List.mem_map.mp h with ⟨x, hx, hxp⟩
    rcases List.mem_flatMap.mp hx with ⟨e, he, hxe⟩
    rcases mem_of_mem_bucketPush he hxe with ⟨l, hl, hxl⟩ | hxr
    · left
      exact List.mem_append.mpr (Or.inr (List.mem_map.mpr
        ⟨x, List.mem_flatMap.mpr ⟨(e.1, l), hl, hxl⟩, hxp⟩))
    · right; rw [← hxp, hxr]

theorem trackedFiles_addEvalRecord {wf pp u p : String} {proj : TsProject}
    (h : p ∈ trackedFiles (addEvalRecord wf pp proj u)) :
    p ∈ trackedFiles proj ∨ p = u := by
  unfold addEvalRecord at h
  cases hev : evaluateModuleForTsProject pp proj.cfg wf u with
  | bareImport nm ip =>
    simp only [hev] at h
    rcases trackedFiles_bare_push h with h | h
    · exact Or.inl h
    · exact Or.inr h
  | relativeImport nm =>
    simp only [hev] at h
    rcases trackedFiles_rel_push h with h | h
    · exact Or.inl h
    · exact Or.inr h
  | importDisallowed =>
    simp only [hev] at h
    exact Or.inl h

theorem trackedFiles_foldl_addEval {wf pp : String} : ∀ (files : List String)
    (init : TsProject) {p : String},
    p ∈ trackedFiles (files.foldl (fun proj u => addEvalRecord wf pp proj u) init) →
    p ∈ trackedFiles init ∨ p ∈ files := by
  intro files
  induction files with
  | nil => intro init p h; exact Or.inl h
  | cons u us ih =>
    intro init p h
    simp only [List.foldl_cons] at h
    rcases ih _ h with h | h
    · rcases trackedFiles_addEvalRecord h with h | h
      · exact Or.inl h
      · exact Or.inr (by simp [h])
    · exact Or.inr (by simp [h])

theorem trackedFiles_bare_filterAt {proj : TsProject} {k : String}
    {keep : ModuleForBareImport → Bool} {p : String}
    (h : p ∈ trackedFiles { proj with bare := bucketFilterAt proj.bare k keep }) :
    p ∈ trackedFiles proj := by
  unfold trackedFiles at h ⊢
  simp only at h
  rcases List.mem_append.mp h with h | h
  · rcases List.mem_map.mp h with ⟨x, hx, hxp⟩
    rcases List.mem_flatMap.mp hx with ⟨e, he, hxe⟩
    obtain ⟨l, hl, hxl⟩ := mem_of_mem_bucketFilterAt he hxe
    exact List.mem_append.mpr (Or.inl (List.mem_map.mpr
      ⟨x, List.mem_flatMap.mpr ⟨(e.1, l), hl, hxl⟩, hxp⟩))
  · exact List.mem_append.mpr (Or.inr h)

theorem trackedFiles_rel_filterAt {proj : TsProject} {k : String}
    {keep : ModuleForRelativeImport → Bool} {p : String}
    (h : p ∈ trackedFiles { proj with rel := bucketFilterAt proj.rel k keep }) :
    p ∈ trackedFiles proj := by
  unfold trackedFiles at h ⊢
  simp only at h
  rcases List.mem_append.mp h with h | h
  · exact List.mem_append.mpr (Or.inl h)
  · rcases List.mem_map.mp h with ⟨x, hx, hxp⟩
    rcases List.mem_flatMap.mp hx with ⟨e, he, hxe⟩
    obtain ⟨l, hl, hxl⟩ := mem_of_mem_bucketFilterAt he hxe
    exact List.mem_append.mpr (Or.inr (List.mem_map.mpr
      ⟨x, List.mem_flatMap.mpr ⟨(e.1, l), hl, hxl⟩, hxp⟩))

theorem trackedFiles_removeEvalRecord {wf pp u p : String} {proj : TsProject}
    (h : p ∈ trackedFiles (removeEvalRecord wf pp proj u)) :
    p ∈ trackedFiles proj := by
  unfold removeEvalRecord at h
  cases hev : evaluateModuleForTsProject pp proj.cfg wf u with
  | bareImport nm ip => simp only [hev] at h; exact trackedFiles_bare_filterAt h
  | relativeImport nm => simp only [hev] at h; exact trackedFiles_rel_filterAt h
  | importDisallowed => simp only [hev] at h; exact h

theorem trackedFiles_filter_both {proj : TsProject} {q1 : ModuleForBareImport → Bool}
    {q2 : ModuleForRelativeImport → Bool} {p : String}
    (h : p ∈ trackedFiles { proj with
        bare := proj.bare.map (fun b => (b.1, b.2.filter q1)),
        rel := proj.rel.map (fun b => (b.1, b.2.filter q2)) }) :
    p ∈ trackedFiles proj := by
  unfold trackedFiles at h ⊢
  simp only at h
  rcases List.mem_append.mp h with h | h
  · rcases List.mem_map.mp h with ⟨x, hx, hxp⟩
    rcases List.mem_flatMap.mp hx with ⟨e, he, hxe⟩
    rcases List.mem_map.mp he with ⟨b, hb, hbe⟩
    rw [← hbe] at hxe
    exact List.mem_append.mpr (Or.inl (List.mem_map.mpr
      ⟨x, List.mem_flatMap.mpr ⟨b, hb, (List.mem_filter.mp hxe).1⟩, hxp⟩))
  · rcases List.mem_map.mp h with ⟨x, hx, hxp⟩
    rcases List.mem_flatMap.mp hx with ⟨e, he, hxe⟩
    rcases List.mem_map.mp he with ⟨b, hb, hbe⟩
    rw [← hbe] at hxe
    exact List.mem_append.mpr (Or.inr (List.mem_map.mpr
      ⟨x, List.mem_flatMap.mpr ⟨b, hb, (List.mem_filter.mp hxe).1⟩, hxp⟩))

/-! ## C3: build-output exclusion is invariant -/

theorem scan_not_under_outdir {env : Env} {folder : WsFolder}
    {cfgs : List (String × TsConfigJson)} {p : String}
    (h : p ∈ scanTsFiles env folder cfgs) :
    ∀ c ∈ cfgs, underOutDir p c.1 c.2 = false := by
  intro c hc
  have hpred := (List.mem_filter.mp h).2
  simp only [Bool.and_eq_true, Bool.not_eq_true'] at hpred
  exact Bool.eq_false_iff.mpr (List.any_eq_false.mp hpred.2 c hc)

theorem makeWorkspace_inv3 (env : Env) (f : WsFolder) :
    ∀ e ∈ (makeWorkspace env f).tsProjectByPath, ∀ p ∈ trackedFiles e.2,
      ∀ e2 ∈ (makeWorkspace env f).tsProjectByPath,
        underOutDir p e2.1 e2.2.cfg = false := by
  intro e he p hp e2 he2
  unfold makeWorkspace at he he2
  simp only at he he2
  rcases List.mem_map.mp he with ⟨c, hc, rfl⟩
  rcases List.mem_map.mp he2 with ⟨c2, hc2, rfl⟩
  simp only at hp ⊢
  rcases trackedFiles_foldl_addEval _ _ hp with hinit | hfile
  · exact absurd hinit (by simp [trackedFiles])
  · rw [foldl_addEval_cfg]
    exact scan_not_under_outdir hfile c2 hc2

theorem buildService_inv3 (env : Env) (folders : List WsFolder) :
    NoOutDirRecords (buildService env folders) := by
  intro nws hm e he p hp e2 he2
  obtain ⟨n, ws⟩ := nws
  obtain ⟨f, rfl⟩ := mem_buildService hm
  exact makeWorkspace_inv3 env f e he p hp e2 he2

theorem outdir_check_blocks {u : String} {projects : List (String × TsProject)}
    (hout : isFileInOutDir u projects = false) :
    ∀ e ∈ projects, underOutDir u e.1 e.2.cfg = false := by
  intro e he
  have hfalse := Bool.eq_false_iff.mpr (List.any_eq_false.mp hout e he)
  unfold underOutDir
  cases hd : getAbsoluteOutDir e.1 e.2.cfg with
  | none => rfl
  | some d =>
    by_contra hcontra
    have htrue : jsStartsWith u (d ++ "/") = true := by
      cases hx : jsStartsWith u (d ++ "/")
      · exact absurd hx hcontra
      · rfl
    have := startsWith_of_startsWith_slash htrue
    rw [hd] at hfalse
    simp [this] at hfalse

theorem handleFileCreated_inv3 {env : Env} {svc : Service} {u : String}
    (hI : NoOutDirRecords svc) : NoOutDirRecords (handleFileCreated env svc u) := by
  unfold handleFileCreated
  by_cases h1 : pBasename u = "tsconfig.json"
  · rw [if_pos h1]; exact buildService_inv3 env _
  · rw [if_neg h1]
    by_cases h2 : ¬ isTsFile u = true
    · rw [if_pos h2]; exact hI
    · rw [if_neg h2]
      cases hc : checkChangedFileAndGetWorkspace env svc u with
      | none => simp only; exact hI
      | some pr =>
        obtain ⟨n, ws⟩ := pr
        simp only
        obtain ⟨hmem, hnm, hout⟩ := check_some hc
        intro nws hm e he p hp e2 he2
        obtain ⟨n1, ws1⟩ := nws
        rcases mem_aSet hm with hold | hnew
        · exact hI (n1, ws1) hold e he p hp e2 he2
        · have hws1 : ws1 = ⟨ws.folder,
              ws.tsProjectByPath.map (fun e =>
                (e.1, addEvalRecord ws.folder.path e.1 e.2 u)),
              match findOwnerTsProjectForTsFile u
                  ((ws.tsProjectByPath.map (fun e =>
                    (e.1, addEvalRecord ws.folder.path e.1 e.2 u))).map (fun e => e.1)) with
              | some pp => aSet ws.ownerByFile u pp
              | none => ws.ownerByFile⟩ := congrArg Prod.snd hnew
          subst hws1
          simp only at he he2 hp
          rcases List.mem_map.mp he with ⟨e0, he0, rfl⟩
          rcases List.mem_map.mp he2 with ⟨e02, he02, rfl⟩
          simp only [addEvalRecord_cfg] at hp ⊢
          rcases trackedFiles_addEvalRecord hp with hpold | hpu
          · exact hI (n, ws) hmem e0 he0 p hpold e02 he02
          · subst hpu
            exact outdir_check_blocks hout e02 he02

theorem handleFileDeleted_inv3 {env : Env} {svc : Service} {u : String}
    (hI : NoOutDirRecords svc) : NoOutDirRecords (handleFileDeleted env svc u) := by
  unfold handleFileDeleted
  cases hc : checkChangedFileAndGetWorkspace env svc u with
  | none => simp only; exact hI
  | some pr =>
    obtain ⟨n, ws⟩ := pr
    simp only
    obtain ⟨hmem, hnm, hout⟩ := check_some hc
    by_cases hdir : pExtname u = ""
    · rw [if_pos hdir]
      by_cases hroot : ws.tsProjectByPath.any (fun e => jsStartsWith e.1 u) = true
      · rw [if_pos hroot]; exact buildService_inv3 env _
      · rw [if_neg hroot]
        intro nws hm e he p hp e2 he2
        obtain ⟨n1, ws1⟩ := nws
        rcases mem_aSet hm with hold | hnew
        · exact hI (n1, ws1) hold e he p hp e2 he2
        · have hws1 := congrArg Prod.snd hnew
          subst hws1
          simp only at he he2 hp
          rcases List.mem_map.mp he with ⟨e0, he0, rfl⟩
          rcases List.mem_map.mp he2 with ⟨e02, he02, rfl⟩
          simp only at hp ⊢
          exact hI (n, ws) hmem e0 he0 p (trackedFiles_filter_both hp) e02 he02
    · rw [if_neg hdir]
      by_cases hcfg : pBasename u = "tsconfig.json"
      · rw [if_pos hcfg]; exact buildService_inv3 env _
      · rw [if_neg hcfg]
        by_cases hts : ¬ isTsFile u = true
        · rw [if_pos hts]; exact hI
        · rw [if_neg hts]
          intro nws hm e he p hp e2 he2
          obtain ⟨n1, ws1⟩ := nws
          rcases mem_aSet hm with hold | hnew
          · exact hI (n1, ws1) hold e he p hp e2 he2
          · have hws1 := congrArg Prod.snd hnew
            subst hws1
            simp only at he he2 hp
            rcases List.mem_map.mp he with ⟨e0, he0, rfl⟩
            rcases List.mem_map.mp he2 with ⟨e02, he02, rfl⟩
            simp only [removeEvalRecord_cfg] at hp ⊢
            exact hI (n, ws) hmem e0 he0 p (trackedFiles_removeEvalRecord hp) e02 he02

theorem handleFileChanged_inv3 {env : Env} {svc : Service} {u : String}
    (hI : NoOutDirRecords svc) : NoOutDirRecords (handleFileChanged env svc u) := by
  unfold handleFileChanged
  by_cases h1 : pBasename u = "tsconfig.json"
  · rw [if_pos h1]; exact buildService_inv3 env _
  · rw [if_neg h1]; exact hI

/-- C3: in every reachable service state — initial full scans and any
sequence of file-created, file-deleted and file-changed events — no record
of any project of any workspace owns a file lying under the resolved
build-output directory of any of that workspace's projects. -/
theorem files_under_outdir_never_indexed (svc : Service) (h : Reachable svc) :
    NoOutDirRecords svc := by
  induction h with
  | init env folders => exact buildService_inv3 env folders
  | created env svc u _ ih => exact handleFileCreated_inv3 ih
  | deleted env svc u _ ih => exact handleFileDeleted_inv3 ih
  | changed env svc u _ ih => exact handleFileChanged_inv3 ih

/-- Witness for C3: the invariant at the concretely built fixture state. -/
theorem files_under_outdir_never_indexed_witness : NoOutDirRecords exSvc :=
  files_under_outdir_never_indexed exSvc (Reachable.init exEnvBefore [exFolder])

/-! ## C9: lookup misses never throw -/

theorem owner_foldl_keys {keys : List String} : ∀ (files : List String)
    (m : List (String × String)),
    (∀ e ∈ m, e.2 ∈ keys) →
    ∀ e ∈ files.foldl (fun m f =>
        match findOwnerTsProjectForTsFile f keys with
        | some pp => aSet m f pp
        | none => m) m, e.2 ∈ keys := by
  intro files
  induction files with
  | nil => intro m hm e he; exact hm e he
  | cons f fs ih =>
    intro m hm e he
    simp only [List.foldl_cons] at he
    refine ih _ ?_ e he
    intro e2 he2
    cases ho : findOwnerTsProjectForTsFile f keys with
    | none => simp only [ho] at he2; exact hm e2 he2
    | some pp =>
      simp only [ho] at he2
      rcases mem_aSet he2 with hold | hnew
      · exact hm e2 hold
      · rw [hnew]
        exact findOwner_mem_keys ho

theorem makeWorkspace_inv9 (env : Env) (f : WsFolder) :
    ∀ e ∈ (makeWorkspace env f).ownerByFile,
      e.2 ∈ (makeWorkspace env f).tsProjectByPath.map (fun x => x.1) := by
  intro e he
  unfold makeWorkspace at he ⊢
  simp only at he ⊢
  exact owner_foldl_keys _ [] (by simp) e he

theorem buildService_inv9 (env : Env) (folders : List WsFolder) :
    OwnerKeysValid (buildService env folders) := by
  intro nws hm e he
  obtain ⟨n, ws⟩ := nws
  obtain ⟨f, rfl⟩ := mem_buildService hm
  exact makeWorkspace_inv9 env f e he

theorem handleFileCreated_inv9 {env : Env} {svc : Service} {u : String}
    (hI : OwnerKeysValid svc) : OwnerKeysValid (handleFileCreated env svc u) := by
  unfold handleFileCreated
  by_cases h1 : pBasename u = "tsconfig.json"
  · rw [if_pos h1]; exact buildService_inv9 env _
  · rw [if_neg h1]
    by_cases h2 : ¬ isTsFile u = true
    · rw [if_pos h2]; exact hI
    · rw [if_neg h2]
      cases hc : checkChangedFileAndGetWorkspace env svc u with
      | none => simp only; exact hI
      | some pr =>
        obtain ⟨n, ws⟩ := pr
        simp only
        obtain ⟨hmem, -, -⟩ := check_some hc
        intro nws hm e he
        obtain ⟨n1, ws1⟩ := nws
        rcases mem_aSet hm with hold | hnew
        · exact hI (n1, ws1) hold e he
        · have hws1 := congrArg Prod.snd hnew
          subst hws1
          simp only at he ⊢
          rw [keys_map_pair]
          cases ho : findOwnerTsProjectForTsFile u
              ((ws.tsProjectByPath.map (fun e =>
                (e.1, addEvalRecord ws.folder.path e.1 e.2 u))).map (fun e => e.1)) with
          | none =>
            simp only [ho] at he
            exact hI (n, ws) hmem e he
          | some pp =>
            simp only [ho] at he
            rcases mem_aSet he with hold | hnew2
            · exact hI (n, ws) hmem e hold
            · rw [hnew2]
              have := findOwner_mem_keys ho
              rwa [keys_map_pair] at this

theorem handleFileDeleted_inv9 {env : Env} {svc : Service} {u : String}
    (hI : OwnerKeysValid svc) : OwnerKeysValid (handleFileDeleted env svc u) := by
  unfold handleFileDeleted
  cases hc : checkChangedFileAndGetWorkspace env svc u with
  | none => simp only; exact hI
  | some pr =>
    obtain ⟨n, ws⟩ := pr
    simp only
    obtain ⟨hmem, -, -⟩ := check_some hc
    by_cases hdir : pExtname u = ""
    · rw [if_pos hdir]
      by_cases hroot : ws.tsProjectByPath.any (fun e => jsStartsWith e.1 u) = true
      · rw [if_pos hroot]; exact buildService_inv9 env _
      · rw [if_neg hroot]
        intro nws hm e he
        obtain ⟨n1, ws1⟩ := nws
        rcases mem_aSet hm with hold | hnew
        · exact hI (n1, ws1) hold e he
        · have hws1 := congrArg Prod.snd hnew
          subst hws1
          simp only at he ⊢
          rw [keys_map_pair]
          exact hI (n, ws) hmem e (List.mem_filter.mp he).1
    · rw [if_neg hdir]
      by_cases hcfg : pBasename u = "tsconfig.json"
      · rw [if_pos hcfg]; exact buildService_inv9 env _
      · rw [if_neg hcfg]
        by_cases hts : ¬ isTsFile u = true
        · rw [if_pos hts]; exact hI
        · rw [if_neg hts]
          intro nws hm e he
          obtain ⟨n1, ws1⟩ := nws
          rcases mem_aSet hm with hold | hnew
          · exact hI (n1, ws1) hold e he
          · have hws1 := congrArg Prod.snd hnew
            subst hws1
            simp only at he ⊢
            rw [keys_map_pair]
            exact hI (n, ws) hmem e (List.mem_filter.mp he).1

theorem handleFileChanged_inv9 {env : Env} {svc : Service} {u : String}
    (hI : OwnerKeysValid svc) : OwnerKeysValid (handleFileChanged env svc u) := by
  unfold handleFileChanged
  by_cases h1 : pBasename u = "tsconfig.json"
  · rw [if_pos h1]; exact buildService_inv9 env _
  · rw [if_neg h1]; exact hI

theorem reachable_owner_keys (svc : Service) (h : Reachable svc) :
    OwnerKeysValid svc := by
  induction h with
  | init env folders => exact buildService_inv9 env folders
  | created env svc u _ ih => exact handleFileCreated_inv9 ih
  | deleted env svc u _ ih => exact handleFileDeleted_inv9 ih
  | changed env svc u _ ih => exact handleFileChanged_inv9 ih

/-- C9: in every reachable state, a query whose workspace-folder lookup
fails returns the empty list, a query whose owner-project lookup fails
returns the empty list, and the query operation never reaches the throwing
branch of the internal project-map lookup: its result is always `.ok`. -/
theorem query_lookup_miss_returns_empty (svc : Service) (h : Reachable svc)
    (env : Env) (uriPath q : String) :
    (getWorkspaceFolder env uriPath = none →
      getModulesForCompletion env svc uriPath q = .ok [])
    ∧ (∀ f ws, getWorkspaceFolder env uriPath = some f → aGet svc f.name = some ws →
        aGet ws.ownerByFile uriPath = none →
        getModulesForCompletion env svc uriPath q = .ok [])
    ∧ ∃ l, getModulesForCompletion env svc uriPath q = .ok l := by
  have hinv := reachable_owner_keys svc h
  refine ⟨?_, ?_, ?_⟩
  · intro hf
    unfold getModulesForCompletion checkChangedFileAndGetWorkspace
    simp only [hf]
  · intro f ws hf hws hown
    unfold getModulesForCompletion checkChangedFileAndGetWorkspace
    simp only [hf, hws]
    by_cases hcond : (jsIncludes uriPath "node_modules/"
        || isFileInOutDir uriPath ws.tsProjectByPath) = true
    · simp only [hcond, if_true]
    · simp [hcond, hown]
  · unfold getModulesForCompletion
    cases hc : checkChangedFileAndGetWorkspace env svc uriPath with
    | none => exact ⟨[], by simp⟩
    | some pr =>
      obtain ⟨n, ws⟩ := pr
      simp only
      cases ho : aGet ws.ownerByFile uriPath with
      | none => exact ⟨[], by simp⟩
      | some pp =>
        have hmem := (check_some hc).1
        have hpk := hinv (n, ws) hmem (uriPath, pp) (aGet_mem ho)
        obtain ⟨proj, hproj⟩ := mem_keys_aGet hpk
        simp only [ho, hproj]
        exact ⟨_, rfl⟩

/-- Witness for C9: a query for a file outside every tracked folder on the
concretely built fixture state returns the empty list. -/
theorem query_lookup_miss_returns_empty_witness :
    getModulesForCompletion exQueryEnv exSvc "/elsewhere/x.ts" "a" = .ok [] :=
  (query_lookup_miss_returns_empty exSvc (Reachable.init exEnvBefore [exFolder])
    exQueryEnv "/elsewhere/x.ts" "a").1 (by decide)

end S2P
